import Mathlib

/-
Shallow embedding of the infer-json-stream core (src/types.rs, src/inference.rs,
src/formatting.rs, src/generation.rs) and proofs about it.

Modelling conventions:
* `HashMap<String, PropertyDefinition>` is modelled by `PropList`, an association
  list of (key, type, optional) entries; a map is represented canonically by the
  list of its entries sorted strictly by key, so structural equality of canonical
  `PropList`s coincides with the `PartialEq` of the Rust `HashMap`.
* The `unreachable!()` panic in `merge_types` is modelled by `Option`: `none`
  means the call panics; every other code path returns `some`.
* `rayon`'s `reduce(|| Never, merge_types)` over a category's samples is
  modelled as a left fold with seed `Never` over the input order.
* Rust's `char::is_numeric` / `char::is_alphanumeric` are modelled by the ASCII
  classifiers `Char.isDigit` / `Char.isAlphanum`, which agree with them on all
  ASCII input.
-/

/-- Embedding of `PrimitiveType` (src/types.rs). The constructor order realises
the derived `Ord`: String < Number < Boolean < Null. -/
inductive PrimitiveType where
  | string
  | number
  | boolean
  | null
deriving DecidableEq, Repr

/-- Position of a `PrimitiveType` in the derived total order. -/
def PrimitiveType.rank : PrimitiveType → Nat
  | .string => 0
  | .number => 1
  | .boolean => 2
  | .null => 3

/-- Embedding of the derived `<` on `PrimitiveType`. -/
def PrimitiveType.lt (a b : PrimitiveType) : Bool := a.rank < b.rank

/-- Embedding of `PrimitiveType::as_str` (src/types.rs). -/
def PrimitiveType.as_str : PrimitiveType → String
  | .string => "string"
  | .number => "number"
  | .boolean => "boolean"
  | .null => "null"

/-- Insertion of one element into a list sorted ascending by the
`PrimitiveType` order. -/
def insertPrim (p : PrimitiveType) : List PrimitiveType → List PrimitiveType
  | [] => [p]
  | q :: rest => if p.rank ≤ q.rank then p :: q :: rest else q :: insertPrim p rest

/-- Model of `Vec::<PrimitiveType>::sort()` as insertion sort; elements of equal
rank are equal, so stability is irrelevant. -/
def sortPrims : List PrimitiveType → List PrimitiveType
  | [] => []
  | p :: rest => insertPrim p (sortPrims rest)

/-- Model of `Vec::dedup` (removes consecutive repeated elements). -/
def dedupAdj : List PrimitiveType → List PrimitiveType
  | [] => []
  | [a] => [a]
  | a :: b :: rest => if a = b then dedupAdj (b :: rest) else a :: dedupAdj (b :: rest)

/-- Model of the push-if-absent loops of `merge_types`
(`for t in l { if !acc.contains(t) { acc.push(t) } }`). -/
def pushMissing (acc l : List PrimitiveType) : List PrimitiveType :=
  l.foldl (fun acc t => if t ∈ acc then acc else acc ++ [t]) acc

mutual
/-- Embedding of `InferredType` (src/types.rs); `object` carries the canonical
association-list model of the property `HashMap`. -/
inductive InferredType where
  | primitive (p : PrimitiveType)
  | any
  | array (item : InferredType)
  | object (props : PropList)
  | primitiveUnion (types : List PrimitiveType)
  | primitiveTuple (types : List PrimitiveType)
  | nullableObj (inner : InferredType)
  | never
deriving DecidableEq, Repr

/-- Association list of `(key, PropertyDefinition { type, optional })` entries
modelling `HashMap<String, PropertyDefinition>` (src/types.rs). -/
inductive PropList where
  | nil
  | cons (key : String) (ty : InferredType) (optional : Bool) (rest : PropList)
deriving DecidableEq, Repr
end

mutual
/-- Structural size measure used for termination of the recursion over
`InferredType`. -/
def InferredType.sz : InferredType → Nat
  | .primitive _ => 1
  | .any => 1
  | .array t => t.sz + 1
  | .object props => props.sz + 1
  | .primitiveUnion _ => 1
  | .primitiveTuple _ => 1
  | .nullableObj t => t.sz + 1
  | .never => 1

/-- Structural size measure for `PropList`. -/
def PropList.sz : PropList → Nat
  | .nil => 0
  | .cons _ t _ rest => t.sz + rest.sz + 1
end

/-- Marking of every entry as optional, as done for keys present on only one
side of the object merge (src/inference.rs lines 191-206). -/
def PropList.setAllOptional : PropList → PropList
  | .nil => .nil
  | .cons k t _ rest => .cons k t true rest.setAllOptional

/-- Keys of a `PropList`, in entry order. -/
def PropList.keys : PropList → List String
  | .nil => []
  | .cons k _ _ rest => k :: rest.keys

mutual
/-- Embedding of `merge_types` (src/inference.rs lines 60-224), arm for arm in
the source order of the Rust `match`. `none` models the `unreachable!()` panic
on line 214. -/
def merge_types (type1 type2 : InferredType) : Option InferredType :=
  if type1 = type2 then some type1 else
  match type1, type2 with
  | .any, _ | _, .any => some .any
  | .never, t | t, .never => some t
  | .primitive p1, .primitive p2 =>
      some (.primitiveUnion (if p1.lt p2 then [p1, p2] else [p2, p1]))
  | .primitive p, .primitiveUnion types | .primitiveUnion types, .primitive p =>
      if p ∈ types then some (.primitiveUnion types)
      else some (.primitiveUnion (sortPrims (types ++ [p])))
  | .primitiveUnion types1, .primitiveUnion types2 =>
      if types1 = types2 then some (.primitiveUnion types1)
      else some (.primitiveUnion (sortPrims (pushMissing types1 types2)))
  | .primitiveTuple types1, .primitiveTuple types2 =>
      if types1 = types2 then some (.primitiveTuple types1)
      else
        match types1 ++ types2 with
        | [] => some (.primitiveTuple [])
        | first_type :: tail_types =>
          if tail_types.all (fun t => t = first_type) then
            some (.array (.primitive first_type))
          else
            some (.array (.primitiveUnion (dedupAdj (sortPrims (types1 ++ types2)))))
  | .primitiveTuple types, .array item_type | .array item_type, .primitiveTuple types =>
      (match item_type with
      | .primitiveUnion union_types =>
          let union_types' := pushMissing union_types types
          some (.array (.primitiveUnion
            (if union_types'.length = union_types.length then union_types'
             else sortPrims union_types')))
      | _ =>
        let primitive_item_type : Option PrimitiveType :=
          match item_type with
          | .primitive p => some p
          | _ => none
        match types with
        | [] => some (.array item_type)
        | first_type :: tail_types =>
          if ¬ (tail_types.all (fun t => t = first_type)) then
            let unique_types :=
              match primitive_item_type with
              | some p => if p ∈ types then types else types ++ [p]
              | none => types
            some (.array (.primitiveUnion (sortPrims unique_types)))
          else
            match primitive_item_type with
            | some p =>
                if p = first_type then some (.array (.primitive p))
                else some (.array (.primitiveUnion
                  (if p.lt first_type then [p, first_type] else [first_type, p])))
            | none => some (.array (.primitive first_type)))
  | .array item_type1, .array item_type2 =>
      (merge_types item_type1 item_type2).map .array
  | .object obj1, .object obj2 =>
      (mergeProps obj1 obj2).map .object
  | t, .primitive .null | .primitive .null, t =>
      (match t with
      | .object _ | .array _ => some (.nullableObj t)
      | _ => none)
  | .nullableObj obj, .nullableObj obj2 =>
      (merge_types obj obj2).map .nullableObj
  | .nullableObj obj, t | t, .nullableObj obj =>
      (merge_types obj t).map .nullableObj
  | _, _ => some .any
termination_by type1.sz + type2.sz
decreasing_by all_goals (first
  | (simp [InferredType.sz, PropList.sz]; omega)
  | simp [InferredType.sz, PropList.sz]
  | omega)

/-- Embedding of the key-wise object merge (src/inference.rs lines 182-207) on
the canonical sorted association-list model of `HashMap`: the Rust loop builds
the point-wise merge of the two maps, which on canonically sorted entry lists
is this sorted merge. Keys present on both sides merge their types and or their
optional flags; keys present on one side are carried over with `optional`
forced to `true`. -/
def mergeProps : PropList → PropList → Option PropList
  | .nil, l2 => some l2.setAllOptional
  | l1, .nil => some l1.setAllOptional
  | .cons k1 t1 o1 r1, .cons k2 t2 o2 r2 =>
    if k1 = k2 then
      match merge_types t1 t2, mergeProps r1 r2 with
      | some t, some rest => some (.cons k1 t (o1 || o2) rest)
      | _, _ => none
    else if k1 < k2 then
      (mergeProps r1 (.cons k2 t2 o2 r2)).map (.cons k1 t1 true)
    else
      (mergeProps (.cons k1 t1 o1 r1) r2).map (.cons k2 t2 true)
termination_by l1 l2 => l1.sz + l2.sz
decreasing_by all_goals (first
  | (simp [InferredType.sz, PropList.sz]; omega)
  | simp [InferredType.sz, PropList.sz]
  | omega)
end

/-- Embedding of `serde_json::Value`. Number content is irrelevant to inference
and is modelled by `Int`; `serde_json`'s object map (a `BTreeMap`) is modelled
by its entry list, sorted strictly by key with unique keys. -/
inductive Value where
  | null
  | bool (b : Bool)
  | num (n : Int)
  | str (s : String)
  | arr (elems : List Value)
  | obj (fields : List (String × Value))

/-- Sequencing of a fallible function over a list, failing as soon as one
element fails (the shape shared by `inferList`, `inferProps`, `formatProps`
and `mapM` in the generation pipeline). -/
def optionMapList {α β : Type} (f : α → Option β) : List α → Option (List β)
  | [] => some []
  | a :: rest =>
    match f a with
    | none => none
    | some b =>
      match optionMapList f rest with
      | none => none
      | some bs => some (b :: bs)

/-- Tuple attempt of `infer_type_from_value` (src/inference.rs lines 15-28):
per-element primitive kinds in encounter order, `none` as soon as an element is
an array or object. -/
def tupleKinds : List Value → Option (List PrimitiveType)
  | [] => some []
  | .null :: rest => (tupleKinds rest).map (fun l => .null :: l)
  | .bool _ :: rest => (tupleKinds rest).map (fun l => .boolean :: l)
  | .num _ :: rest => (tupleKinds rest).map (fun l => .number :: l)
  | .str _ :: rest => (tupleKinds rest).map (fun l => .string :: l)
  | _ :: _ => none

/-- Left fold of `merge_types` from an initial accumulator, propagating the
panic. `rayon`'s unordered reductions are modelled by the fold over input
order; order (in)dependence is what the theorems below settle. -/
def reduceMerge (init : InferredType) (ts : List InferredType) : Option InferredType :=
  ts.foldlM merge_types init

mutual
/-- Embedding of `infer_type_from_value` (src/inference.rs lines 7-58). The
array fallback reduces the element types with `merge_types` (first element as
accumulator, as `Iterator::reduce` does); an empty array yields the empty
tuple. `none` models a panic inside the reduction. -/
def infer_type_from_value : Value → Option InferredType
  | .null => some (.primitive .null)
  | .bool _ => some (.primitive .boolean)
  | .num _ => some (.primitive .number)
  | .str _ => some (.primitive .string)
  | .arr elems =>
      match tupleKinds elems with
      | some kinds => some (.primitiveTuple (sortPrims kinds))
      | none =>
        match inferList elems with
        | none => none
        | some [] => some (.primitiveTuple [])
        | some (t :: ts) => (reduceMerge t ts).map .array
  | .obj fields => (inferProps fields).map .object

/-- Element-wise inference for the array fallback. -/
def inferList : List Value → Option (List InferredType)
  | [] => some []
  | v :: rest =>
    match infer_type_from_value v, inferList rest with
    | some t, some ts => some (t :: ts)
    | _, _ => none

/-- Property-wise inference for objects: every property of a single sample is
`optional = false` (src/inference.rs lines 42-56). -/
def inferProps : List (String × Value) → Option PropList
  | [] => some .nil
  | (key, v) :: rest =>
    match infer_type_from_value v, inferProps rest with
    | some t, some ps => some (.cons key t false ps)
    | _, _ => none
end

/-- Embedding of `is_valid_ts_identifier` (src/formatting.rs lines 6-10):
first character present and not numeric, and every character alphanumeric,
underscore or dollar. ASCII model of the Rust `char` classifiers. -/
def is_valid_ts_identifier (s : String) : Bool :=
  (match s.data with
   | [] => false
   | c :: _ => !c.isDigit)
  && s.data.all (fun c => c.isAlphanum || c = '_' || c = '$')

/-- Character-level model of `key.replace("\"", "\\\"")` (the pattern is a
single character, so the replacement is per-character). -/
def escapeQuote : List Char → List Char
  | [] => []
  | c :: rest => if c = '"' then '\\' :: '"' :: escapeQuote rest else c :: escapeQuote rest

/-- Embedding of `format_property_key` (src/formatting.rs lines 5-17). -/
def format_property_key (key : String) : String :=
  if is_valid_ts_identifier key then key
  else "\"" ++ String.mk (escapeQuote key.data) ++ "\""

/-- Insertion into a list of (key, rendered line) pairs sorted by key. -/
def insertLine (e : String × String) : List (String × String) → List (String × String)
  | [] => [e]
  | f :: rest => if e.1 ≤ f.1 then e :: f :: rest else f :: insertLine e rest

/-- Model of `sorted.sort_by(|(key1, _), (key2, _)| key1.cmp(key2))`
(src/formatting.rs line 43) as insertion sort by key. Keys of a `HashMap` are
distinct, so any comparison sort by key produces the same list. -/
def sortLines : List (String × String) → List (String × String)
  | [] => []
  | e :: rest => insertLine e (sortLines rest)

mutual
/-- Embedding of `format_type_to_ts_string` (src/formatting.rs lines 19-64).
`none` models the `unreachable!()` on `Never` (line 62). Property lines are
rendered entry-wise and then sorted by key, which agrees with the source's
sort-then-render because the line built for an entry is a function of the
entry alone and the sort compares only keys. -/
def format_type_to_ts_string : InferredType → Option String
  | .primitive prim_type => some prim_type.as_str
  | .any => some "any"
  | .primitiveUnion types =>
      some (String.intercalate " | " (types.map PrimitiveType.as_str))
  | .primitiveTuple types =>
      if types.isEmpty then some "[]"
      else some ("[" ++ String.intercalate ", " (types.map PrimitiveType.as_str) ++ "]")
  | .array item_type =>
      (format_type_to_ts_string item_type).map (fun s => "Array<" ++ s ++ ">")
  | .object properties =>
      if properties = PropList.nil then some "object"
      else
        (formatProps properties).map (fun lines =>
          "\x7b\n" ++ String.intercalate ";\n" ((sortLines lines).map Prod.snd) ++ "\n\x7d")
  | .nullableObj obj =>
      (format_type_to_ts_string obj).map (fun inner_type => inner_type ++ " | null")
  | .never => none

/-- Per-entry rendering of object properties: each entry yields its key paired
with the line `"  <key><?>: <type>"` (src/formatting.rs lines 46-54). -/
def formatProps : PropList → Option (List (String × String))
  | .nil => some []
  | .cons key ty opt rest =>
    match format_type_to_ts_string ty, formatProps rest with
    | some s, some lines =>
        some ((key,
          "  " ++ format_property_key key ++ (if opt then "?" else "") ++ ": " ++ s) :: lines)
    | _, _ => none
end

/-- Embedding of `InputData` (src/types.rs). -/
structure InputData where
  type : String
  content : String

/-- Per-sample decoding (src/generation.rs lines 16-40): decode `content`; a
decoded string is decoded once more; on either failure the sample is flagged
invalid and its (possibly unwrapped) string content retained. `serde_json`
parsing is an external collaborator, passed in as the `parse` oracle. -/
def decodeItem (parse : String → Option Value) (item : InputData) : String × Value × Bool :=
  match parse item.content with
  | none => (item.type, .str item.content, true)
  | some (.str s) =>
      match parse s with
      | some parsed => (item.type, parsed, false)
      | none => (item.type, .str s, true)
  | some v => (item.type, v, false)

/-- Valid decoded contents of one category, in input order (the
`entry(..).or_default().push` grouping of src/generation.rs lines 42-57). -/
def typeContents (items : List (String × Value × Bool)) (c : String) : List Value :=
  items.filterMap (fun e => if e.1 = c ∧ e.2.2 = false then some e.2.1 else none)

/-- Retained representative invalid content for one category: repeated
`HashMap::insert` keeps the last one (src/generation.rs lines 48-51). -/
def lastInvalid (items : List (String × Value × Bool)) (c : String) : Option String :=
  items.foldl (fun acc e =>
    if e.1 = c ∧ e.2.2 = true then
      match e.2.1 with
      | .str s => some s
      | _ => acc
    else acc) none

/-- Insertion into a sorted list of strings. -/
def insertStr (s : String) : List String → List String
  | [] => [s]
  | t :: rest => if s ≤ t then s :: t :: rest else t :: insertStr s rest

/-- Sorting a list of strings ascending (the `BTreeMap` iteration order of
src/generation.rs line 59, applied to the deduplicated category names). -/
def sortStrs : List String → List String
  | [] => []
  | s :: rest => insertStr s (sortStrs rest)

/-- Per-category reduction (src/generation.rs lines 62-65): infer every
decoded value, then reduce with `merge_types` from the `Never` seed. -/
def categoryFold (vals : List Value) : Option InferredType :=
  match optionMapList infer_type_from_value vals with
  | none => none
  | some ts => reduceMerge .never ts

/-- Final type of one category (src/generation.rs lines 59-75): categories
with valid samples get their reduction (still evaluated, and its panic still
propagated, even when overwritten); categories with an invalid sample are
forced to `Primitive(String)` by the `extend` on lines 70-75. -/
def overallType (items : List (String × Value × Bool)) (c : String) : Option InferredType :=
  match typeContents items c with
  | [] => some (.primitive .string)
  | v :: vs =>
    (categoryFold (v :: vs)).map (fun t =>
      if (lastInvalid items c).isSome then .primitive .string else t)

/-- Declaration block and union member of one category (src/generation.rs
lines 77-98). `pascal_case` (the external `stringcase` crate) is an oracle
parameter. -/
def categoryBlock (pascal_case : String → String) (items : List (String × Value × Bool))
    (c : String) : Option (String × String) :=
  match overallType items c with
  | none => none
  | some ty =>
    match format_type_to_ts_string ty with
    | none => none
    | some rendered =>
      let type_name := pascal_case c ++ "Content"
      let ts_output :=
        match lastInvalid items c with
        | some invalid_json =>
            "// The 'content' field contained invalid JSON: \"" ++ invalid_json
              ++ "\"\nexport type " ++ type_name ++ " = " ++ rendered ++ ";\n\n"
        | none => "export type " ++ type_name ++ " = " ++ rendered ++ ";\n\n"
      let event_type_string := "\x7b type: \"" ++ c ++ "\", content: " ++ type_name ++ " \x7d"
      some (ts_output, event_type_string)

/-- Embedding of `generate_typescript_definitions` (src/generation.rs).
`some` models the (always-`Ok`) return; `none` models a panic escaping the
call. -/
def generate_typescript_definitions (parse : String → Option Value)
    (pascal_case : String → String) (json_array : List InputData)
    (root_name : String) : Option String :=
  let items := json_array.map (decodeItem parse)
  let cats := sortStrs (items.map Prod.fst).dedup
  match optionMapList (categoryBlock pascal_case items) cats with
  | none => none
  | some blocks =>
    some (String.join (blocks.map Prod.fst)
      ++ "export type " ++ root_name ++ " = "
      ++ String.intercalate " | " (blocks.map Prod.snd) ++ ";\n")

mutual
/-- Data-model invariant portion used by the commutativity theorem: a
`PrimitiveUnion` holds no duplicate kinds (§3 of the data model stores unions
sorted without duplicates; only duplicate-freeness is needed), recursively
through `Array`, `Object` and `NullableObj`. -/
def InferredType.Wf : InferredType → Prop
  | .primitive _ => True
  | .any => True
  | .array t => t.Wf
  | .object props => props.Wf
  | .primitiveUnion types => types.Nodup
  | .primitiveTuple _ => True
  | .nullableObj t => t.Wf
  | .never => True

/-- Entry-wise well-formedness of object properties. -/
def PropList.Wf : PropList → Prop
  | .nil => True
  | .cons _ t _ rest => t.Wf ∧ rest.Wf
end

/-- Ascending (non-strict) order on primitive kinds. -/
def leRank (a b : PrimitiveType) : Prop := a.rank ≤ b.rank

/-- Ascending strict order on primitive kinds. -/
def ltRank (a b : PrimitiveType) : Prop := a.rank < b.rank

/-- Primitive-kind fragment of `InferredType`: `Never`, single primitives, and
canonical primitive unions (strictly sorted, at least two members). Exactly
the types that can describe one category of primitive-only samples. -/
def PrimFrag : InferredType → Prop
  | .never => True
  | .primitive _ => True
  | .primitiveUnion types => types.Pairwise ltRank ∧ 2 ≤ types.length
  | _ => False

/-- Kind list of a primitive-fragment type. -/
def kindsOf : InferredType → List PrimitiveType
  | .never => []
  | .primitive p => [p]
  | .primitiveUnion types => types
  | _ => []

/-- Canonical primitive-fragment type of a kind list. -/
def canonOf : List PrimitiveType → InferredType
  | [] => .never
  | [p] => .primitive p
  | types => .primitiveUnion types

/-- Test for the four primitive JSON values (not array/object). -/
def isPrimValue : Value → Bool
  | .null => true
  | .bool _ => true
  | .num _ => true
  | .str _ => true
  | _ => false

/-- Primitive kind of a primitive JSON value (arbitrary on arrays/objects,
which are excluded wherever this is used). -/
def primKind : Value → PrimitiveType
  | .null => .null
  | .bool _ => .boolean
  | .num _ => .number
  | .str _ => .string
  | .arr _ => .string
  | .obj _ => .string

/-- Test for `Primitive` or `PrimitiveUnion` (the two item types from which
the tuple-with-array merge keeps information). -/
def isPrimitiveOrUnion : InferredType → Bool
  | .primitive _ => true
  | .primitiveUnion _ => true
  | _ => false

/-- Key pattern claimed by the specification for bare rendering:
the regex `^[^0-9][A-Za-z0-9_$]*$` (first character anything but a digit,
remaining characters alphanumeric, underscore or dollar). -/
def claimKeyRegex (s : String) : Bool :=
  match s.data with
  | [] => false
  | c :: rest => !c.isDigit && rest.all (fun d => d.isAlphanum || d = '_' || d = '$')

/-- Amended key pattern: the regex `^[A-Za-z_$][A-Za-z0-9_$]*$` (the first
character must itself be a letter, underscore or dollar). -/
def amendedKeyRegex (s : String) : Bool :=
  match s.data with
  | [] => false
  | c :: rest =>
      (c.isAlpha || c = '_' || c = '$') && rest.all (fun d => d.isAlphanum || d = '_' || d = '$')

/-- Quoting described by the amended claim: each double quote gets a backslash
in front of it; no other character (in particular no backslash) is escaped. -/
def specEscapeQuoteOnly (l : List Char) : List Char :=
  (l.map (fun c => if c = '"' then ['\\', c] else [c])).flatten

/-- Concrete JSON-parse oracle for the closed generation scenarios; it agrees
with `serde_json::from_str` on the three contents it is used with
("null", "[1]" and the non-JSON string "oops"). -/
def cparse : String → Option Value
  | "null" => some .null
  | "[1]" => some (.arr [.num 1])
  | _ => none

/-- Entry list of a `PropList`. -/
def PropList.toList : PropList → List (String × InferredType × Bool)
  | .nil => []
  | .cons k t o rest => (k, t, o) :: rest.toList

/-- Accumulated canonical kind list of a reduction over primitive-fragment
types: each step merges in the kinds of the next type and re-canonicalises. -/
def fragFoldKinds (k : List PrimitiveType) (ts : List InferredType) : List PrimitiveType :=
  ts.foldl (fun k t => sortPrims (pushMissing k (kindsOf t))) k

theorem insertPrim_perm (p : PrimitiveType) (l : List PrimitiveType) :
    List.Perm (insertPrim p l) (p :: l) := by
  induction l with
  | nil => simp [insertPrim]
  | cons q rest ih =>
    simp only [insertPrim]
    split
    · exact List.Perm.refl _
    · exact (ih.cons q).trans (List.Perm.swap p q rest)

theorem sortPrims_perm (l : List PrimitiveType) : List.Perm (sortPrims l) l := by
  induction l with
  | nil => simp [sortPrims]
  | cons p rest ih => exact (insertPrim_perm p (sortPrims rest)).trans (ih.cons p)

theorem mem_sortPrims {l : List PrimitiveType} {p : PrimitiveType} :
    p ∈ sortPrims l ↔ p ∈ l :=
  (sortPrims_perm l).mem_iff

theorem insertPrim_pairwise {p : PrimitiveType} {l : List PrimitiveType}
    (h : l.Pairwise leRank) : (insertPrim p l).Pairwise leRank := by
  induction l with
  | nil => simp [insertPrim, leRank]
  | cons q rest ih =>
    rw [List.pairwise_cons] at h
    simp only [insertPrim]
    split
    · refine List.Pairwise.cons ?_ (List.Pairwise.cons h.1 h.2)
      intro x hx
      rcases List.mem_cons.mp hx with rfl | hx
      · assumption
      · exact Nat.le_trans (by assumption) (h.1 x hx)
    · refine List.Pairwise.cons ?_ (ih h.2)
      intro x hx
      rcases List.mem_cons.mp ((insertPrim_perm p rest).mem_iff.mp hx) with rfl | hx
      · exact Nat.le_of_lt (Nat.lt_of_not_le (by assumption))
      · exact h.1 x hx

theorem sortPrims_pairwise (l : List PrimitiveType) :
    (sortPrims l).Pairwise leRank := by
  induction l with
  | nil => simp [sortPrims]
  | cons p rest ih => exact insertPrim_pairwise ih

theorem PrimitiveType.rank_inj {a b : PrimitiveType} (h : a.rank = b.rank) : a = b := by
  cases a <;> cases b <;> first | rfl | (simp [PrimitiveType.rank] at h)

theorem pairwise_ltRank_of_le_nodup {l : List PrimitiveType}
    (hle : l.Pairwise leRank) (hnd : l.Nodup) : l.Pairwise ltRank := by
  refine (hle.and hnd).imp ?_
  rintro a b ⟨h1, h2⟩
  exact Nat.lt_of_le_of_ne h1 (fun h => h2 (PrimitiveType.rank_inj h))

theorem nodup_of_pairwise_ltRank {l : List PrimitiveType}
    (h : l.Pairwise ltRank) : l.Nodup := by
  refine h.imp ?_
  intro a b hab
  intro hcontra
  subst hcontra
  exact Nat.lt_irrefl _ hab

theorem sortPrims_pairwise_lt {l : List PrimitiveType} (h : l.Nodup) :
    (sortPrims l).Pairwise ltRank :=
  pairwise_ltRank_of_le_nodup (sortPrims_pairwise l) ((sortPrims_perm l).nodup_iff.mpr h)

instance : IsAntisymm PrimitiveType ltRank where
  antisymm a b h1 h2 := absurd (Nat.lt_trans h1 h2) (Nat.lt_irrefl _)

instance : IsAntisymm PrimitiveType leRank where
  antisymm a b h1 h2 := PrimitiveType.rank_inj (Nat.le_antisymm h1 h2)

theorem canon_ext {l m : List PrimitiveType}
    (hl : l.Pairwise ltRank) (hm : m.Pairwise ltRank)
    (h : ∀ p, p ∈ l ↔ p ∈ m) : l = m := by
  have hperm : List.Perm l m := by
    refine List.perm_of_nodup_nodup_toFinset_eq
      (nodup_of_pairwise_ltRank hl) (nodup_of_pairwise_ltRank hm) ?_
    ext p
    simp only [List.mem_toFinset]
    exact h p
  exact @List.eq_of_perm_of_sorted _ ltRank _ _ _ hperm hl hm

theorem sortPrims_eq_of_perm {l m : List PrimitiveType} (h : List.Perm l m) :
    sortPrims l = sortPrims m := by
  have hperm : List.Perm (sortPrims l) (sortPrims m) :=
    (sortPrims_perm l).trans (h.trans (sortPrims_perm m).symm)
  exact @List.eq_of_perm_of_sorted _ leRank _ _ _ hperm
    (sortPrims_pairwise l) (sortPrims_pairwise m)

theorem mem_dedupAdj : ∀ (l : List PrimitiveType) (p : PrimitiveType),
    p ∈ dedupAdj l ↔ p ∈ l := by
  intro l
  induction l with
  | nil => simp [dedupAdj]
  | cons a rest ih =>
    cases rest with
    | nil => simp [dedupAdj]
    | cons b rest2 =>
      intro p
      simp only [dedupAdj]
      split
      · rename_i hab
        subst hab
        rw [ih p]
        simp only [List.mem_cons]
        tauto
      · rw [List.mem_cons, ih p, List.mem_cons]
        simp [List.mem_cons]

theorem dedupAdj_pairwise_lt : ∀ {l : List PrimitiveType},
    l.Pairwise leRank → (dedupAdj l).Pairwise ltRank := by
  intro l
  induction l with
  | nil => simp [dedupAdj]
  | cons a rest ih =>
    cases rest with
    | nil => simp [dedupAdj, List.pairwise_cons]
    | cons b rest2 =>
      intro h
      rw [List.pairwise_cons] at h
      simp only [dedupAdj]
      split
      · exact ih h.2
      · rename_i hab
        refine List.Pairwise.cons ?_ (ih h.2)
        intro x hx
        rw [mem_dedupAdj] at hx
        have hb : leRank a b := h.1 b (by simp)
        have hab' : ltRank a b :=
          Nat.lt_of_le_of_ne hb (fun hr => hab (PrimitiveType.rank_inj hr))
        rcases List.mem_cons.mp hx with rfl | hx
        · exact hab'
        · have := (List.pairwise_cons.mp h.2).1 x hx
          exact Nat.lt_of_lt_of_le hab' this

theorem mem_pushMissing : ∀ (l acc : List PrimitiveType) (p : PrimitiveType),
    p ∈ pushMissing acc l ↔ p ∈ acc ∨ p ∈ l := by
  intro l
  induction l with
  | nil => simp [pushMissing]
  | cons t rest ih =>
    intro acc p
    show p ∈ pushMissing (if t ∈ acc then acc else acc ++ [t]) rest ↔ _
    rw [ih]
    split
    · rename_i ht
      simp only [List.mem_cons]
      constructor
      · tauto
      · rintro (h | rfl | h)
        · tauto
        · exact Or.inl ht
        · tauto
    · simp only [List.mem_append, List.mem_cons, List.mem_singleton]
      tauto

theorem nodup_pushMissing : ∀ (l acc : List PrimitiveType), acc.Nodup →
    (pushMissing acc l).Nodup := by
  intro l
  induction l with
  | nil => exact fun acc h => h
  | cons t rest ih =>
    intro acc h
    show (pushMissing (if t ∈ acc then acc else acc ++ [t]) rest).Nodup
    refine ih _ ?_
    split
    · exact h
    · rw [List.nodup_append]
      exact ⟨h, List.nodup_singleton t, by simpa using (by assumption : t ∉ acc)⟩

theorem length_le_pushMissing : ∀ (l acc : List PrimitiveType),
    acc.length ≤ (pushMissing acc l).length := by
  intro l
  induction l with
  | nil => simp [pushMissing]
  | cons t rest ih =>
    intro acc
    refine Nat.le_trans ?_ (ih (if t ∈ acc then acc else acc ++ [t]))
    split
    · exact Nat.le_refl _
    · simp

/-- C4: `Never` is the identity and `Any` the absorbing element of
`merge_types`: for every `x`, `merge(Never, x) = x` and `merge(Any, x) = Any`,
and neither call panics. -/
theorem merge_never_id_any_absorbing (x : InferredType) :
    merge_types .never x = some x ∧ merge_types .any x = some .any := by
  constructor
  · cases x <;> simp [merge_types]
  · cases x <;> simp [merge_types]

theorem merge_tuple_tuple_eval (t1 t2 : List PrimitiveType) (hne : t1 ≠ t2)
    (first : PrimitiveType) (tail : List PrimitiveType)
    (hsplit : t1 ++ t2 = first :: tail) :
    merge_types (.primitiveTuple t1) (.primitiveTuple t2)
      = if tail.all (fun t => t = first) then some (.array (.primitive first))
        else some (.array (.primitiveUnion (dedupAdj (sortPrims (t1 ++ t2))))) := by
  simp only [merge_types, hsplit]
  simp [hne, ← hsplit]

/-- C6: merging two `PrimitiveTuple`s with distinct kind-lists collapses to an
array: one distinct kind in the combined multiset gives
`Array(Primitive(that kind))`, otherwise `Array(PrimitiveUnion(...))` whose
member list is strictly sorted, duplicate-free, and holds exactly the kinds of
both tuples. -/
theorem merge_tuple_tuple_collapses (t1 t2 : List PrimitiveType) (hne : t1 ≠ t2) :
    (∀ p, (∀ k ∈ t1 ++ t2, k = p) →
      merge_types (.primitiveTuple t1) (.primitiveTuple t2) = some (.array (.primitive p))) ∧
    ((¬ ∃ p, ∀ k ∈ t1 ++ t2, k = p) →
      merge_types (.primitiveTuple t1) (.primitiveTuple t2)
        = some (.array (.primitiveUnion (dedupAdj (sortPrims (t1 ++ t2))))) ∧
      (dedupAdj (sortPrims (t1 ++ t2))).Pairwise ltRank ∧
      (∀ k, k ∈ dedupAdj (sortPrims (t1 ++ t2)) ↔ k ∈ t1 ++ t2)) := by
  have hcomb : t1 ++ t2 ≠ [] := by
    intro h
    rcases List.append_eq_nil.mp h with ⟨h1, h2⟩
    exact hne (h1.trans h2.symm)
  obtain ⟨first, tail, hsplit⟩ := List.exists_cons_of_ne_nil hcomb
  have key := merge_tuple_tuple_eval t1 t2 hne first tail hsplit
  constructor
  · intro p hall
    have hfirst : first = p := hall first (by rw [hsplit]; exact List.mem_cons_self _ _)
    have htail : (tail.all (fun t => t = first)) = true := by
      rw [List.all_eq_true]
      intro k hk
      have hk' : k = p := hall k (by rw [hsplit]; exact List.mem_cons_of_mem _ hk)
      simp [hk', hfirst]
    rw [key, if_pos htail, hfirst]
  · intro hnex
    have htail : ¬ ((tail.all (fun t => t = first)) = true) := by
      intro hcontra
      refine hnex ⟨first, ?_⟩
      intro k hk
      rw [hsplit] at hk
      rcases List.mem_cons.mp hk with rfl | hk
      · rfl
      · simpa using List.all_eq_true.mp hcontra k hk
    refine ⟨by rw [key, if_neg htail], ?_, ?_⟩
    · exact dedupAdj_pairwise_lt (sortPrims_pairwise (t1 ++ t2))
    · intro k
      rw [mem_dedupAdj, mem_sortPrims]

/-- Witness for C6: the tuples inferred for `[10,20]` and `[30,40,50]` merge to
`Array<number>`. -/
theorem merge_tuple_tuple_collapses_witness :
    infer_type_from_value (.arr [.num 10, .num 20])
      = some (.primitiveTuple [.number, .number]) ∧
    infer_type_from_value (.arr [.num 30, .num 40, .num 50])
      = some (.primitiveTuple [.number, .number, .number]) ∧
    merge_types (.primitiveTuple [.number, .number])
      (.primitiveTuple [.number, .number, .number]) = some (.array (.primitive .number)) :=
  ⟨by simp [infer_type_from_value, tupleKinds, sortPrims, insertPrim, PrimitiveType.rank],
   by simp [infer_type_from_value, tupleKinds, sortPrims, insertPrim, PrimitiveType.rank],
   (merge_tuple_tuple_collapses _ _ (by decide)).1 .number (by decide)⟩

/-- C10: merging a non-empty `PrimitiveTuple` with an `Array` whose item type
is neither `Primitive` nor `PrimitiveUnion` produces an array type computed
from the tuple's kinds alone — the array's own item type is discarded
(src/inference.rs lines 118-178, the `primitive_item_type = None` paths). -/
theorem merge_tuple_array_discards_item (item : InferredType)
    (hitem : isPrimitiveOrUnion item = false)
    (first : PrimitiveType) (tail : List PrimitiveType) :
    merge_types (.primitiveTuple (first :: tail)) (.array item)
      = some (.array (if tail.all (fun t => t = first) then .primitive first
          else .primitiveUnion (sortPrims (first :: tail)))) ∧
    merge_types (.array item) (.primitiveTuple (first :: tail))
      = some (.array (if tail.all (fun t => t = first) then .primitive first
          else .primitiveUnion (sortPrims (first :: tail)))) := by
  cases item <;>
    first
      | (simp [isPrimitiveOrUnion] at hitem; done)
      | (by_cases hc : (tail.all (fun t => t = first)) = true <;>
          constructor <;> simp [merge_types, hc])

/-- Witness for C10: the types inferred for the samples `[{"a":1}]` and `[1]`
merge to `Array<number>`, dropping the object item type. -/
theorem merge_tuple_array_discards_item_witness :
    infer_type_from_value (.arr [.obj [("a", .num 1)]])
      = some (.array (.object (.cons "a" (.primitive .number) false .nil))) ∧
    infer_type_from_value (.arr [.num 1]) = some (.primitiveTuple [.number]) ∧
    merge_types (.primitiveTuple [.number])
      (.array (.object (.cons "a" (.primitive .number) false .nil)))
      = some (.array (.primitive .number)) := by
  refine ⟨?_, ?_, ?_⟩
  · simp [infer_type_from_value, tupleKinds, inferList, inferProps, reduceMerge]
  · simp [infer_type_from_value, tupleKinds, sortPrims, insertPrim]
  · have h := (merge_tuple_array_discards_item
      (.object (.cons "a" (.primitive .number) false .nil)) (by rfl) .number []).1
    simpa using h

theorem tupleKinds_eq_of_prim : ∀ (l : List Value), (∀ v ∈ l, isPrimValue v = true) →
    tupleKinds l = some (l.map primKind) := by
  intro l
  induction l with
  | nil => simp [tupleKinds]
  | cons v rest ih =>
    intro hl
    have hv := hl v (List.mem_cons_self _ _)
    have hrest := fun w hw => hl w (List.mem_cons_of_mem _ hw)
    cases v <;> simp [isPrimValue] at hv <;> simp [tupleKinds, ih hrest, primKind]

/-- C5: an array whose elements are all primitive infers to the
`PrimitiveTuple` of the per-element kinds sorted ascending by the fixed order,
and the inferred type therefore only depends on the multiset of element kinds:
any two such arrays with permuted kind lists infer to the identical tuple. -/
theorem infer_primitive_array_sorted_tuple (elems elems' : List Value)
    (h : ∀ v ∈ elems, isPrimValue v = true)
    (h' : ∀ v ∈ elems', isPrimValue v = true)
    (hperm : List.Perm (elems.map primKind) (elems'.map primKind)) :
    infer_type_from_value (.arr elems)
      = some (.primitiveTuple (sortPrims (elems.map primKind))) ∧
    (sortPrims (elems.map primKind)).Pairwise leRank ∧
    infer_type_from_value (.arr elems) = infer_type_from_value (.arr elems') := by
  have e1 : infer_type_from_value (.arr elems)
      = some (.primitiveTuple (sortPrims (elems.map primKind))) := by
    simp [infer_type_from_value, tupleKinds_eq_of_prim elems h]
  have e2 : infer_type_from_value (.arr elems')
      = some (.primitiveTuple (sortPrims (elems'.map primKind))) := by
    simp [infer_type_from_value, tupleKinds_eq_of_prim elems' h']
  refine ⟨e1, sortPrims_pairwise _, ?_⟩
  rw [e1, e2, sortPrims_eq_of_perm hperm]

/-- Witness for C5: `[1, "a"]` and `["b", 2]` infer to the identical tuple
type `[string, number]`. -/
theorem infer_primitive_array_sorted_tuple_witness :
    infer_type_from_value (.arr [.num 1, .str "a"])
      = infer_type_from_value (.arr [.str "b", .num 2]) :=
  (infer_primitive_array_sorted_tuple [.num 1, .str "a"] [.str "b", .num 2]
    (by decide) (by decide) (by decide)).2.2

theorem insertLine_perm (e : String × String) (l : List (String × String)) :
    List.Perm (insertLine e l) (e :: l) := by
  induction l with
  | nil => simp [insertLine]
  | cons f rest ih =>
    simp only [insertLine]
    split
    · exact List.Perm.refl _
    · exact (ih.cons f).trans (List.Perm.swap e f rest)

theorem sortLines_perm (l : List (String × String)) : List.Perm (sortLines l) l := by
  induction l with
  | nil => simp [sortLines]
  | cons e rest ih => exact (insertLine_perm e (sortLines rest)).trans (ih.cons e)

theorem insertLine_pairwise {e : String × String} {l : List (String × String)}
    (h : l.Pairwise (fun a b => a.1 ≤ b.1)) :
    (insertLine e l).Pairwise (fun a b => a.1 ≤ b.1) := by
  induction l with
  | nil => simp [insertLine]
  | cons f rest ih =>
    rw [List.pairwise_cons] at h
    simp only [insertLine]
    split
    · refine List.Pairwise.cons ?_ (List.Pairwise.cons h.1 h.2)
      intro x hx
      rcases List.mem_cons.mp hx with rfl | hx
      · assumption
      · exact le_trans (by assumption) (h.1 x hx)
    · refine List.Pairwise.cons ?_ (ih h.2)
      intro x hx
      rcases List.mem_cons.mp ((insertLine_perm e rest).mem_iff.mp hx) with rfl | hx
      · exact le_of_not_le (by assumption)
      · exact h.1 x hx

theorem sortLines_pairwise (l : List (String × String)) :
    (sortLines l).Pairwise (fun a b => a.1 ≤ b.1) := by
  induction l with
  | nil => simp [sortLines]
  | cons e rest ih => exact insertLine_pairwise ih

instance : IsAntisymm (String × String) (fun a b => a.1 < b.1) where
  antisymm a b h1 h2 := absurd (lt_trans h1 h2) (lt_irrefl _)

theorem sortLines_eq_of_perm {l m : List (String × String)} (hperm : List.Perm l m)
    (hnd : (l.map (fun e => e.1)).Nodup) : sortLines l = sortLines m := by
  have hndl : ((sortLines l).map (fun e => e.1)).Nodup :=
    (((sortLines_perm l).map _).nodup_iff).mpr hnd
  have hndm : ((sortLines m).map (fun e => e.1)).Nodup := by
    refine (((sortLines_perm m).map _).nodup_iff).mpr ?_
    exact ((hperm.map _).nodup_iff).mp hnd
  have hlt : ∀ (x : List (String × String)), ((x.map (fun e => e.1)).Nodup) →
      x.Pairwise (fun a b => a.1 ≤ b.1) → x.Pairwise (fun a b : String × String => a.1 < b.1) := by
    intro x hx hle
    have hne : x.Pairwise (fun a b => a.1 ≠ b.1) := (List.pairwise_map).mp hx
    exact (hle.and hne).imp (fun h => lt_of_le_of_ne h.1 h.2)
  have hperm' : List.Perm (sortLines l) (sortLines m) :=
    (sortLines_perm l).trans (hperm.trans (sortLines_perm m).symm)
  have hs1 : List.Sorted (fun a b : String × String => a.1 < b.1) (sortLines l) :=
    hlt _ hndl (sortLines_pairwise l)
  have hs2 : List.Sorted (fun a b : String × String => a.1 < b.1) (sortLines m) :=
    hlt _ hndm (sortLines_pairwise m)
  exact List.eq_of_perm_of_sorted hperm' hs1 hs2

theorem optionMapList_perm {α β : Type} (f : α → Option β) {l1 l2 : List α}
    (h : List.Perm l1 l2) :
    ∀ ys1, optionMapList f l1 = some ys1 →
      ∃ ys2, optionMapList f l2 = some ys2 ∧ List.Perm ys1 ys2 := by
  induction h with
  | nil => exact fun ys1 h1 => ⟨ys1, h1, List.Perm.refl _⟩
  | cons x hsub ih =>
    rename_i t1 t2
    intro ys1 h1
    simp only [optionMapList] at h1
    cases hfx : f x <;> rw [hfx] at h1
    · simp at h1
    · cases hrest : optionMapList f t1 <;> rw [hrest] at h1
      · simp at h1
      · rename_i b bs
        obtain rfl : b :: bs = ys1 := by simpa using h1
        obtain ⟨ys2, hys2, hp⟩ := ih bs hrest
        refine ⟨b :: ys2, ?_, hp.cons b⟩
        simp [optionMapList, hfx, hys2]
  | swap x y l =>
    intro ys1 h1
    simp only [optionMapList] at h1
    cases hfy : f y <;> rw [hfy] at h1
    · simp at h1
    · cases hfx : f x <;> rw [hfx] at h1
      · simp at h1
      · cases hrest : optionMapList f l <;> rw [hrest] at h1
        · simp at h1
        · rename_i b a bs
          obtain rfl : b :: a :: bs = ys1 := by simpa using h1
          exact ⟨a :: b :: bs, by simp [optionMapList, hfx, hfy, hrest],
            List.Perm.swap a b bs⟩
  | trans hab hbc ih1 ih2 =>
    intro ys1 hy
    obtain ⟨ys2, h2', hp⟩ := ih1 ys1 hy
    obtain ⟨ys3, h3', hp'⟩ := ih2 ys2 h2'
    exact ⟨ys3, h3', hp.trans hp'⟩

theorem optionMapList_map_eq {α β γ : Type} (f : α → Option β) (g : β → γ) (h : α → γ)
    (hfg : ∀ a b, f a = some b → g b = h a) :
    ∀ (l : List α) (ys : List β), optionMapList f l = some ys → ys.map g = l.map h := by
  intro l
  induction l with
  | nil =>
    intro ys h1
    simp only [optionMapList, Option.some.injEq] at h1
    subst h1
    simp
  | cons a t ih =>
    intro ys h1
    simp only [optionMapList] at h1
    cases hfa : f a <;> rw [hfa] at h1
    · simp at h1
    · cases hrest : optionMapList f t <;> rw [hrest] at h1
      · simp at h1
      · rename_i b bs
        obtain rfl : b :: bs = ys := by simpa using h1
        simp [List.map_cons, hfg a b hfa, ih bs hrest]

theorem toList_eq_nil {p : PropList} : p.toList = [] ↔ p = .nil := by
  cases p <;> simp [PropList.toList]

theorem formatProps_eq_optionMapList : ∀ p : PropList,
    formatProps p = optionMapList (fun e =>
      (format_type_to_ts_string e.2.1).map (fun s =>
        (e.1, "  " ++ format_property_key e.1 ++ (if e.2.2 then "?" else "") ++ ": " ++ s)))
      p.toList
  | .nil => by simp [formatProps, PropList.toList, optionMapList]
  | .cons k t o rest => by
    have ih := formatProps_eq_optionMapList rest
    simp only [formatProps, PropList.toList, optionMapList, ← ih]
    cases hf : format_type_to_ts_string t <;> cases hr : formatProps rest <;>
      simp [hf, hr]

/-- C8: object rendering is insensitive to property insertion order — any two
property lists that are permutations of one another (with distinct keys, as in
a `HashMap`) render to identical text, the listing being sorted by key — and
the empty object renders as "object". -/
theorem render_object_key_order_insensitive (props1 props2 : PropList)
    (hperm : List.Perm props1.toList props2.toList)
    (hnd : (props1.toList.map (fun e => e.1)).Nodup) :
    format_type_to_ts_string (.object props1) = format_type_to_ts_string (.object props2) ∧
    format_type_to_ts_string (.object .nil) = some "object" := by
  refine ⟨?_, by simp [format_type_to_ts_string]⟩
  by_cases h1 : props1 = PropList.nil
  · subst h1
    have h0 : props2.toList = [] := by
      have h' := hperm.symm
      simp only [PropList.toList] at h'
      exact h'.eq_nil
    rw [toList_eq_nil.mp h0]
  · have h2 : props2 ≠ PropList.nil := by
      intro hc
      subst hc
      apply h1
      refine toList_eq_nil.mp ?_
      have h' := hperm
      simp only [PropList.toList] at h'
      exact h'.eq_nil
    simp only [format_type_to_ts_string, if_neg h1, if_neg h2]
    rw [formatProps_eq_optionMapList, formatProps_eq_optionMapList]
    cases hm : optionMapList (fun e =>
        (format_type_to_ts_string e.2.1).map (fun s =>
          (e.1, "  " ++ format_property_key e.1 ++ (if e.2.2 then "?" else "") ++ ": " ++ s)))
        props1.toList with
    | none =>
      cases hm2 : optionMapList (fun e =>
          (format_type_to_ts_string e.2.1).map (fun s =>
            (e.1, "  " ++ format_property_key e.1 ++ (if e.2.2 then "?" else "") ++ ": " ++ s)))
          props2.toList with
      | none => rfl
      | some ys2 =>
        obtain ⟨ys1, hys1, -⟩ := optionMapList_perm _ hperm.symm ys2 hm2
        rw [hm] at hys1
        simp at hys1
    | some ys1 =>
      obtain ⟨ys2, hys2, hp⟩ := optionMapList_perm _ hperm ys1 hm
      rw [hys2]
      have hkeys : ys1.map (fun e => e.1) = props1.toList.map (fun e => e.1) := by
        refine optionMapList_map_eq _ (fun e => e.1) (fun e => e.1) ?_ _ _ hm
        intro a b hab
        cases hfa : format_type_to_ts_string a.2.1 <;> rw [hfa] at hab
        · simp at hab
        · simp only [Option.map_some'] at hab
          obtain rfl : _ = b := by simpa using hab
          rfl
      have hnd1 : (ys1.map (fun e => e.1)).Nodup := hkeys ▸ hnd
      have hsort : sortLines ys1 = sortLines ys2 := sortLines_eq_of_perm hp hnd1
      simp [hsort]

/-- Witness for C8: two insertion orders of the same two properties render to
the same text. -/
theorem render_object_key_order_insensitive_witness :
    format_type_to_ts_string (.object (.cons "b" (.primitive .number) false
        (.cons "a" (.primitive .string) false .nil)))
      = format_type_to_ts_string (.object (.cons "a" (.primitive .string) false
        (.cons "b" (.primitive .number) false .nil))) :=
  (render_object_key_order_insensitive _ _ (by decide) (by decide)).1

theorem char_alpha_not_digit (c : Char) (h : c.isAlpha = true) : c.isDigit = false := by
  by_contra hcon
  have hd : c.isDigit = true := by revert hcon; cases c.isDigit <;> simp
  simp only [Char.isDigit, Bool.and_eq_true, decide_eq_true_eq] at hd
  simp only [Char.isAlpha, Char.isUpper, Char.isLower, Bool.or_eq_true,
    Bool.and_eq_true, decide_eq_true_eq] at h
  rcases h with ⟨h1, h2⟩ | ⟨h1, h2⟩
  · exact absurd (UInt32.le_trans h1 hd.2) (by decide)
  · exact absurd (UInt32.le_trans h1 hd.2) (by decide)

theorem is_valid_eq_amended (k : String) :
    is_valid_ts_identifier k = amendedKeyRegex k := by
  unfold is_valid_ts_identifier amendedKeyRegex
  cases hd : k.data with
  | nil => simp
  | cons c rest =>
    simp only [List.all_cons]
    cases hdig : c.isDigit with
    | false => simp [Char.isAlphanum, hdig, Bool.and_assoc]
    | true =>
      have ha : c.isAlpha = false := by
        cases hA : c.isAlpha
        · rfl
        · rw [char_alpha_not_digit c hA] at hdig
          exact absurd hdig (by simp)
      have hu : ¬ (c = '_') := by
        intro hc
        subst hc
        exact absurd hdig (by decide)
      have hv : ¬ (c = '$') := by
        intro hc
        subst hc
        exact absurd hdig (by decide)
      simp [Char.isAlphanum, hdig, ha, decide_eq_false hu, decide_eq_false hv]

theorem escapeQuote_eq_spec : ∀ l : List Char, escapeQuote l = specEscapeQuoteOnly l := by
  intro l
  induction l with
  | nil => simp [escapeQuote, specEscapeQuoteOnly]
  | cons c rest ih =>
    simp only [escapeQuote, specEscapeQuoteOnly, List.map_cons, List.flatten_cons] at ih ⊢
    split <;> simp_all

theorem escapeQuote_length (l : List Char) : l.length ≤ (escapeQuote l).length := by
  induction l with
  | nil => simp [escapeQuote]
  | cons c rest ih =>
    simp only [escapeQuote]
    split <;> simp <;> omega

/-- Counterexample for C7: the key `-a` matches the claimed regex
`^[^0-9][A-Za-z0-9_$]*$` but the Formatter quotes it, and the key `a\b`
is quoted with its backslash left unescaped. -/
theorem format_property_key_counterexample :
    claimKeyRegex "-a" = true ∧
    format_property_key "-a" = "\"-a\"" ∧
    format_property_key "-a" ≠ "-a" ∧
    format_property_key "a\\b" = "\"a\\b\"" := by
  refine ⟨by decide, by decide, by decide, by decide⟩

/-- C7 (amended): a key is rendered bare exactly when it matches
`^[A-Za-z_$][A-Za-z0-9_$]*$` (first character a letter, underscore or dollar;
the rest alphanumeric, underscore or dollar; ASCII model); otherwise it is
rendered as a double-quoted literal in which double quotes (and only double
quotes — backslashes are left as they are) get a preceding backslash. -/
theorem format_property_key_amended (k : String) :
    (format_property_key k = k ↔ amendedKeyRegex k = true) ∧
    (amendedKeyRegex k = false →
      format_property_key k = "\"" ++ String.mk (specEscapeQuoteOnly k.data) ++ "\"") := by
  have hlen : k.length < ("\"" ++ String.mk (escapeQuote k.data) ++ "\"").length := by
    simp only [String.length_append]
    have h1 : (String.mk (escapeQuote k.data)).length = (escapeQuote k.data).length := rfl
    have h2 : k.length = k.data.length := rfl
    have := escapeQuote_length k.data
    simp only [h1, h2]
    have h3 : ("\"" : String).length = 1 := rfl
    omega
  constructor
  · constructor
    · intro h
      by_contra hcon
      have hcon' : amendedKeyRegex k = false := by
        revert hcon
        cases amendedKeyRegex k <;> simp
      have hval : is_valid_ts_identifier k = false := (is_valid_eq_amended k).trans hcon'
      rw [format_property_key, hval] at h
      simp only [Bool.false_eq_true, if_false] at h
      have := congrArg String.length h
      omega
    · intro h
      rw [format_property_key, is_valid_eq_amended k, h]
      simp
  · intro h
    have hval : is_valid_ts_identifier k = false := (is_valid_eq_amended k).trans h
    rw [format_property_key, hval]
    simp [escapeQuote_eq_spec]

/-- Witness for C7 (amended): `valid_key` is bare, `123numeric` is quoted. -/
theorem format_property_key_amended_witness :
    format_property_key "valid_key" = "valid_key" ∧
    format_property_key "123numeric" = "\"123numeric\"" := by
  constructor
  · exact (format_property_key_amended "valid_key").1.mpr (by decide)
  · have h := (format_property_key_amended "123numeric").2 (by decide)
    rw [h]
    decide

/-- C3 is violated by the code: the types inferred from the well-formed
samples `null` and `[1]` of one category drive `merge_types` into its
`unreachable!()` branch (modelled as `none`): the Primitive(Null)-with-x rule
is reached with x a `PrimitiveTuple`, so the claimed internal invariant is
user-triggerable. -/
theorem merge_null_tuple_hits_unreachable :
    infer_type_from_value .null = some (.primitive .null) ∧
    infer_type_from_value (.arr [.num 1]) = some (.primitiveTuple [.number]) ∧
    merge_types (.primitive .null) (.primitiveTuple [.number]) = none ∧
    reduceMerge .never [.primitive .null, .primitiveTuple [.number]] = none := by
  refine ⟨by simp [infer_type_from_value],
    by simp [infer_type_from_value, tupleKinds, sortPrims, insertPrim], ?_, ?_⟩
  · simp [merge_types]
  · simp [reduceMerge, merge_types]

theorem insertStr_perm (s : String) (l : List String) :
    List.Perm (insertStr s l) (s :: l) := by
  induction l with
  | nil => simp [insertStr]
  | cons t rest ih =>
    simp only [insertStr]
    split
    · exact List.Perm.refl _
    · exact (ih.cons t).trans (List.Perm.swap s t rest)

theorem sortStrs_perm (l : List String) : List.Perm (sortStrs l) l := by
  induction l with
  | nil => simp [sortStrs]
  | cons s rest ih => exact (insertStr_perm s (sortStrs rest)).trans (ih.cons s)

theorem lastInvalid_mem {c inv : String} :
    ∀ (items : List (String × Value × Bool)),
      lastInvalid items c = some inv → c ∈ items.map Prod.fst := by
  have key : ∀ (items : List (String × Value × Bool)) (acc : Option String),
      c ∉ items.map Prod.fst →
      items.foldl (fun acc e =>
        if e.1 = c ∧ e.2.2 = true then
          match e.2.1 with
          | .str s => some s
          | _ => acc
        else acc) acc = acc := by
    intro items
    induction items with
    | nil => intro acc _; rfl
    | cons e rest ih =>
      intro acc hc
      simp only [List.map_cons, List.mem_cons] at hc
      push_neg at hc
      have hcond : ¬(e.1 = c ∧ e.2.2 = true) := fun h => hc.1 h.1.symm
      rw [List.foldl_cons, if_neg hcond]
      exact ih acc hc.2
  intro items h
  by_contra hc
  rw [lastInvalid, key items none hc] at h
  simp at h

theorem optionMapList_append {α β : Type} (f : α → Option β) :
    ∀ (l1 l2 : List α) (ys : List β), optionMapList f (l1 ++ l2) = some ys →
    ∃ ys1 ys2, optionMapList f l1 = some ys1 ∧ optionMapList f l2 = some ys2 ∧
      ys = ys1 ++ ys2 := by
  intro l1
  induction l1 with
  | nil =>
    intro l2 ys h
    exact ⟨[], ys, rfl, h, rfl⟩
  | cons a t ih =>
    intro l2 ys h
    simp only [List.cons_append, optionMapList, List.append_eq] at h ⊢
    cases hfa : f a <;> rw [hfa] at h
    · simp at h
    · cases hrest : optionMapList f (t ++ l2) <;> rw [hrest] at h
      · simp at h
      · rename_i b bs
        obtain rfl : b :: bs = ys := by simpa using h
        obtain ⟨ys1, ys2, h1, h2, rfl⟩ := ih l2 bs hrest
        exact ⟨b :: ys1, ys2, by simp [h1], h2, rfl⟩

theorem join_cons (s : String) (l : List String) :
    String.join (s :: l) = s ++ String.join l := by
  have key : ∀ (l : List String) (a : String), l.foldl (· ++ ·) a = a ++ String.join l := by
    intro l
    induction l with
    | nil => intro a; simp [String.join]
    | cons x t ih =>
      intro a
      show (x :: t).foldl (· ++ ·) a = _
      rw [List.foldl_cons, ih (a ++ x)]
      show _ = a ++ (x :: t).foldl (· ++ ·) ""
      rw [List.foldl_cons, ih ("" ++ x)]
      simp [String.append_assoc]
  show (s :: l).foldl (· ++ ·) "" = _
  rw [List.foldl_cons, key l ("" ++ s)]
  simp

theorem join_append (l1 l2 : List String) :
    String.join (l1 ++ l2) = String.join l1 ++ String.join l2 := by
  induction l1 with
  | nil => simp [String.join]
  | cons s t ih => rw [List.cons_append, join_cons, ih, join_cons, String.append_assoc]

theorem generate_eq (parse : String → Option Value) (pc : String → String)
    (ja : List InputData) (rn : String) :
    generate_typescript_definitions parse pc ja rn =
      (match optionMapList (categoryBlock pc (ja.map (decodeItem parse)))
          (sortStrs ((ja.map (decodeItem parse)).map Prod.fst).dedup) with
      | none => none
      | some blocks =>
        some (String.join (blocks.map Prod.fst)
          ++ "export type " ++ rn ++ " = "
          ++ String.intercalate " | " (blocks.map Prod.snd) ++ ";\n")) := rfl

/-- C9 (amended): whenever generation completes (returns rather than hitting
the internal-invariant panic), every category holding at least one invalid
sample is emitted as `Primitive(String)` — its declaration reads `= string;` —
preceded by the comment line quoting the retained representative invalid
content, regardless of any valid samples also present in the category. -/
theorem generate_invalid_category_amended
    (parse : String → Option Value) (pascal_case : String → String)
    (json_array : List InputData) (root_name out c inv : String)
    (hgen : generate_typescript_definitions parse pascal_case json_array root_name = some out)
    (hinv : lastInvalid (json_array.map (decodeItem parse)) c = some inv) :
    ∃ pre post, out = pre
      ++ ("// The 'content' field contained invalid JSON: \"" ++ inv
        ++ "\"\nexport type " ++ pascal_case c ++ "Content = string;\n\n") ++ post := by
  rw [generate_eq] at hgen
  set items := json_array.map (decodeItem parse) with hitems
  set cats := sortStrs (items.map Prod.fst).dedup with hcatsdef
  cases hblocks : optionMapList (categoryBlock pascal_case items) cats <;>
    rw [hblocks] at hgen
  · exact absurd hgen (by simp)
  · rename_i blocks
    have hout : out = String.join (blocks.map Prod.fst)
        ++ "export type " ++ root_name ++ " = "
        ++ String.intercalate " | " (blocks.map Prod.snd) ++ ";\n" := by
      simpa using hgen.symm
    have hc : c ∈ cats := by
      have h1 : c ∈ items.map Prod.fst := lastInvalid_mem items hinv
      have h2 : c ∈ (items.map Prod.fst).dedup := List.mem_dedup.mpr h1
      exact (sortStrs_perm _).mem_iff.mpr h2
    obtain ⟨cats1, cats2, hcats⟩ := List.append_of_mem hc
    rw [hcats] at hblocks
    obtain ⟨ys1, ysr, hys1, hysr, rfl⟩ :=
      optionMapList_append _ cats1 (c :: cats2) blocks hblocks
    simp only [optionMapList] at hysr
    cases hfc : categoryBlock pascal_case items c <;> rw [hfc] at hysr
    · simp at hysr
    · rename_i bc
      cases hrest : optionMapList (categoryBlock pascal_case items) cats2 <;>
        rw [hrest] at hysr
      · simp at hysr
      · rename_i ys2
        obtain rfl : bc :: ys2 = ysr := by simpa using hysr
        have hbc1 : bc.1 = "// The 'content' field contained invalid JSON: \"" ++ inv
            ++ "\"\nexport type " ++ pascal_case c ++ "Content = string;\n\n" := by
          unfold categoryBlock at hfc
          cases hover : overallType items c
          · rw [hover] at hfc
            simp at hfc
          · rename_i ty
            have hty : ty = .primitive .string := by
              unfold overallType at hover
              cases hTC : typeContents items c
              · simp only [hTC] at hover
                simpa using hover.symm
              · rename_i v vs
                simp only [hTC] at hover
                cases hcf : categoryFold (v :: vs)
                · simp [hcf] at hover
                · simp [hcf, hinv] at hover
                  exact hover.symm
            subst hty
            have hfmt : format_type_to_ts_string (.primitive .string) = some "string" := by
              simp [format_type_to_ts_string, PrimitiveType.as_str]
            simp only [hover, hfmt, hinv] at hfc
            have hpair : ("// The 'content' field contained invalid JSON: \"" ++ inv
                ++ "\"\nexport type " ++ (pascal_case c ++ "Content") ++ " = "
                ++ "string" ++ ";\n\n",
                "\x7b type: \"" ++ c ++ "\", content: "
                  ++ (pascal_case c ++ "Content") ++ " \x7d") = bc := by
              simpa using hfc
            rw [← hpair]
            simp [String.append_assoc]
        refine ⟨String.join (ys1.map Prod.fst),
          String.join (ys2.map Prod.fst)
            ++ ("export type " ++ root_name ++ " = "
              ++ String.intercalate " | " ((ys1 ++ bc :: ys2).map Prod.snd) ++ ";\n"), ?_⟩
        rw [hout]
        simp only [List.map_append, List.map_cons, join_append, join_cons]
        rw [hbc1]
        simp [String.append_assoc]

/-- Counterexample for C9 as stated: category "e" has samples "null", "[1]"
and the invalid "oops", yet generation emits nothing for it — the reduction of
the two valid samples hits the `unreachable!()` panic, so the whole call dies
instead of emitting `Primitive(String)` for the category. -/
theorem generate_invalid_category_counterexample :
    lastInvalid ([⟨"e", "null"⟩, ⟨"e", "[1]"⟩, ⟨"e", "oops"⟩].map (decodeItem cparse)) "e"
      = some "oops" ∧
    generate_typescript_definitions cparse id
      [⟨"e", "null"⟩, ⟨"e", "[1]"⟩, ⟨"e", "oops"⟩] "Events" = none := by
  constructor
  · decide
  · rw [generate_eq]
    have hcats : sortStrs ((([⟨"e", "null"⟩, ⟨"e", "[1]"⟩, ⟨"e", "oops"⟩] :
        List InputData).map (decodeItem cparse)).map Prod.fst).dedup = ["e"] := by decide
    rw [hcats]
    have htc : typeContents (([⟨"e", "null"⟩, ⟨"e", "[1]"⟩, ⟨"e", "oops"⟩] :
        List InputData).map (decodeItem cparse)) "e" = [.null, .arr [.num 1]] := rfl
    have hcf : categoryFold [Value.null, Value.arr [Value.num 1]] = none := by
      simp [categoryFold, optionMapList, infer_type_from_value, tupleKinds,
        sortPrims, insertPrim, reduceMerge, merge_types]
    have hover : overallType (([⟨"e", "null"⟩, ⟨"e", "[1]"⟩, ⟨"e", "oops"⟩] :
        List InputData).map (decodeItem cparse)) "e" = none := by
      unfold overallType
      rw [htc]
      simp [hcf]
    have hblock : categoryBlock id (([⟨"e", "null"⟩, ⟨"e", "[1]"⟩, ⟨"e", "oops"⟩] :
        List InputData).map (decodeItem cparse)) "e" = none := by
      unfold categoryBlock
      rw [hover]
    simp only [optionMapList, hblock]

/-- Witness for C9 (amended): with the single sample ("bad", "oops"),
generation succeeds and the output holds the comment plus
`export type badContent = string;`. -/
theorem generate_invalid_category_amended_witness :
    ∃ pre post,
      ("// The 'content' field contained invalid JSON: \"oops\"\nexport type badContent = string;\n\nexport type Events = \x7b type: \"bad\", content: badContent \x7d;\n"
        : String)
      = pre ++ ("// The 'content' field contained invalid JSON: \"oops\"\nexport type "
          ++ id "bad" ++ "Content = string;\n\n") ++ post := by
  refine generate_invalid_category_amended cparse id [⟨"bad", "oops"⟩] "Events" _ "bad" "oops"
    ?_ (by decide)
  rw [generate_eq]
  have hfmt : format_type_to_ts_string (.primitive .string) = some "string" := by
    simp [format_type_to_ts_string, PrimitiveType.as_str]
  have hcats : sortStrs ((([⟨"bad", "oops"⟩] :
      List InputData).map (decodeItem cparse)).map Prod.fst).dedup = ["bad"] := by decide
  rw [hcats]
  have htc : typeContents (([⟨"bad", "oops"⟩] :
      List InputData).map (decodeItem cparse)) "bad" = [] := rfl
  have hli : lastInvalid (([⟨"bad", "oops"⟩] :
      List InputData).map (decodeItem cparse)) "bad" = some "oops" := by decide
  have hblock : categoryBlock id (([⟨"bad", "oops"⟩] :
      List InputData).map (decodeItem cparse)) "bad"
      = some ("// The 'content' field contained invalid JSON: \"oops\"\nexport type badContent = string;\n\n",
          "\x7b type: \"bad\", content: badContent \x7d") := by
    unfold categoryBlock overallType
    rw [htc, hli]
    simp only [hfmt, hli]
    decide
  simp only [optionMapList, hblock]
  decide

theorem InferredType.sz_pos (t : InferredType) : 1 ≤ t.sz := by
  cases t <;> simp [InferredType.sz]

theorem merge_comm_core : ∀ n : Nat,
    (∀ a b : InferredType, a.sz + b.sz ≤ n → a.Wf → b.Wf →
      merge_types a b = merge_types b a) ∧
    (∀ l1 l2 : PropList, l1.sz + l2.sz ≤ n → l1.Wf → l2.Wf →
      mergeProps l1 l2 = mergeProps l2 l1) := by
  intro n
  induction n with
  | zero =>
    constructor
    · intro a b hsz _ _
      exact absurd hsz (by
        have h1 := InferredType.sz_pos a
        omega)
    · intro l1 l2 hsz _ _
      cases l1 with
      | nil =>
        cases l2 with
        | nil => rfl
        | cons k t o r =>
          exact absurd hsz (by
            simp only [PropList.sz]
            have := InferredType.sz_pos t
            omega)
      | cons k t o r =>
        exact absurd hsz (by
          simp only [PropList.sz]
          have := InferredType.sz_pos t
          omega)
  | succ n ih =>
    constructor
    · intro a b hsz ha hb
      rcases eq_or_ne a b with rfl | hne
      · rfl
      cases a <;> cases b
      case array.array x y =>
        have hxy : x ≠ y := fun h => hne (by rw [h])
        have hrec : merge_types x y = merge_types y x := by
          refine ih.1 x y ?_ ha hb
          simp only [InferredType.sz] at hsz
          omega
        simp [merge_types, hxy, Ne.symm hxy, hrec]
      case object.object o1 o2 =>
        have ho : o1 ≠ o2 := fun h => hne (by rw [h])
        have hrec : mergeProps o1 o2 = mergeProps o2 o1 := by
          refine ih.2 o1 o2 ?_ ha hb
          simp only [InferredType.sz] at hsz
          omega
        simp [merge_types, ho, Ne.symm ho, hrec]
      case nullableObj.nullableObj x y =>
        have hxy : x ≠ y := fun h => hne (by rw [h])
        have hrec : merge_types x y = merge_types y x := by
          refine ih.1 x y ?_ ha hb
          simp only [InferredType.sz] at hsz
          omega
        simp [merge_types, hxy, Ne.symm hxy, hrec]
      case primitiveUnion.primitiveUnion l1 l2 =>
        have hl : l1 ≠ l2 := fun h => hne (by rw [h])
        have key : sortPrims (pushMissing l1 l2) = sortPrims (pushMissing l2 l1) := by
          refine sortPrims_eq_of_perm ?_
          refine List.perm_of_nodup_nodup_toFinset_eq
            (nodup_pushMissing l2 l1 ha) (nodup_pushMissing l1 l2 hb) ?_
          ext p
          simp only [List.mem_toFinset, mem_pushMissing]
          tauto
        simp [merge_types, hl, Ne.symm hl, key]
      case primitiveTuple.primitiveTuple t1 t2 =>
        have ht : t1 ≠ t2 := fun h => hne (by rw [h])
        have hcomb : t1 ++ t2 ≠ [] := by
          intro h
          rcases List.append_eq_nil.mp h with ⟨h1, h2⟩
          exact ht (h1.trans h2.symm)
        have hcomb' : t2 ++ t1 ≠ [] := by
          intro h
          rcases List.append_eq_nil.mp h with ⟨h1, h2⟩
          exact ht (h2.trans h1.symm)
        obtain ⟨f1, tl1, hs1⟩ := List.exists_cons_of_ne_nil hcomb
        obtain ⟨f2, tl2, hs2⟩ := List.exists_cons_of_ne_nil hcomb'
        rw [merge_tuple_tuple_eval t1 t2 ht f1 tl1 hs1,
          merge_tuple_tuple_eval t2 t1 (fun h => ht h.symm) f2 tl2 hs2]
        have hperm : List.Perm (t1 ++ t2) (t2 ++ t1) := List.perm_append_comm
        have hchar1 : ((tl1.all (fun t => t = f1)) = true) ↔ ∀ k ∈ t1 ++ t2, k = f1 := by
          rw [List.all_eq_true, hs1]
          simp
        have hchar2 : ((tl2.all (fun t => t = f2)) = true) ↔ ∀ k ∈ t2 ++ t1, k = f2 := by
          rw [List.all_eq_true, hs2]
          simp
        have hm1 : f1 ∈ t1 ++ t2 := by rw [hs1]; exact List.mem_cons_self _ _
        have hm2 : f2 ∈ t2 ++ t1 := by rw [hs2]; exact List.mem_cons_self _ _
        by_cases hall : (tl1.all (fun t => t = f1)) = true
        · have hall1 := hchar1.mp hall
          have hf21 : f2 = f1 := hall1 f2 (hperm.mem_iff.mpr hm2)
          have hall2 : (tl2.all (fun t => t = f2)) = true := by
            rw [hchar2, hf21]
            intro k hk
            exact hall1 k (hperm.mem_iff.mpr hk)
          rw [if_pos hall, if_pos hall2, hf21]
        · have hall2 : ¬ ((tl2.all (fun t => t = f2)) = true) := by
            intro hcon
            apply hall
            have hall2' := hchar2.mp hcon
            have hf12 : f1 = f2 := hall2' f1 (hperm.mem_iff.mp hm1)
            rw [hchar1, hf12]
            intro k hk
            exact hall2' k (hperm.mem_iff.mp hk)
          rw [if_neg hall, if_neg hall2, sortPrims_eq_of_perm hperm]
      all_goals
        first
          | (simp [merge_types]; done)
          | ((rename_i p q; cases p <;> cases q <;>
              simp [merge_types, PrimitiveType.lt, PrimitiveType.rank]); done)
          | ((rename_i p x; cases p <;> simp [merge_types]); done)
          | ((rename_i x p; cases p <;> simp [merge_types]); done)
    · intro l1 l2 hsz h1 h2
      cases l1 with
      | nil => cases l2 <;> simp [mergeProps]
      | cons k1 t1 o1 r1 =>
        cases l2 with
        | nil => simp [mergeProps]
        | cons k2 t2 o2 r2 =>
          rcases lt_trichotomy k1 k2 with hk | hk | hk
          · have h12 : ¬ (k1 = k2) := ne_of_lt hk
            have h21 : ¬ (k2 = k1) := ne_of_gt hk
            have hnlt : ¬ (k2 < k1) := lt_asymm hk
            have hrec : mergeProps r1 (.cons k2 t2 o2 r2)
                = mergeProps (.cons k2 t2 o2 r2) r1 := by
              refine ih.2 r1 (.cons k2 t2 o2 r2) ?_ h1.2 h2
              simp only [PropList.sz] at hsz ⊢
              have := InferredType.sz_pos t1
              omega
            simp [mergeProps, h12, h21, hk, hnlt, hrec]
          · subst hk
            have hrect : merge_types t1 t2 = merge_types t2 t1 := by
              refine ih.1 t1 t2 ?_ h1.1 h2.1
              simp only [PropList.sz] at hsz
              omega
            have hrecr : mergeProps r1 r2 = mergeProps r2 r1 := by
              refine ih.2 r1 r2 ?_ h1.2 h2.2
              simp only [PropList.sz] at hsz
              have ht1 := InferredType.sz_pos t1
              have ht2 := InferredType.sz_pos t2
              omega
            simp [mergeProps, hrect, hrecr, Bool.or_comm]
          · have h12 : ¬ (k1 = k2) := ne_of_gt hk
            have h21 : ¬ (k2 = k1) := ne_of_lt hk
            have hnlt : ¬ (k1 < k2) := lt_asymm hk
            have hrec : mergeProps (.cons k1 t1 o1 r1) r2
                = mergeProps r2 (.cons k1 t1 o1 r1) := by
              refine ih.2 (.cons k1 t1 o1 r1) r2 ?_ h1 h2.2
              simp only [PropList.sz] at hsz ⊢
              have := InferredType.sz_pos t2
              omega
            simp [mergeProps, h12, h21, hk, hnlt, hrec]

/-- C2: `merge_types` is commutative — for every pair of well-formed
`InferredType` values (no duplicate kinds inside a `PrimitiveUnion`, the §3
data-model invariant), merging in either order gives the same result,
panics included. -/
theorem merge_types_comm (a b : InferredType) (ha : a.Wf) (hb : b.Wf) :
    merge_types a b = merge_types b a :=
  (merge_comm_core (a.sz + b.sz)).1 a b (Nat.le_refl _) ha hb

/-- Witness for C2 at a concrete pair. -/
theorem merge_types_comm_witness :
    merge_types (.primitive .number) (.object .nil)
      = merge_types (.object .nil) (.primitive .number) :=
  merge_types_comm _ _ (by simp [InferredType.Wf]) (by simp [InferredType.Wf, PropList.Wf])

theorem pushMissing_append_of_disjoint :
    ∀ (l acc : List PrimitiveType), l.Nodup → (∀ x ∈ l, x ∉ acc) →
      pushMissing acc l = acc ++ l := by
  intro l
  induction l with
  | nil => intro acc _ _; simp [pushMissing]
  | cons x rest ih =>
    intro acc hnd hdisj
    have hx : x ∉ acc := hdisj x (List.mem_cons_self _ _)
    show pushMissing (if x ∈ acc then acc else acc ++ [x]) rest = _
    rw [if_neg hx]
    rw [ih (acc ++ [x]) (List.nodup_cons.mp hnd).2]
    · simp
    · intro y hy
      simp only [List.mem_append, List.mem_singleton]
      rintro (h | rfl)
      · exact hdisj y (List.mem_cons_of_mem _ hy) h
      · exact (List.nodup_cons.mp hnd).1 hy

theorem pushMissing_eq_self :
    ∀ (l acc : List PrimitiveType), (∀ x ∈ l, x ∈ acc) → pushMissing acc l = acc := by
  intro l
  induction l with
  | nil => intro acc _; rfl
  | cons x rest ih =>
    intro acc hsub
    show pushMissing (if x ∈ acc then acc else acc ++ [x]) rest = _
    rw [if_pos (hsub x (List.mem_cons_self _ _))]
    exact ih acc (fun y hy => hsub y (List.mem_cons_of_mem _ hy))

theorem sortPrims_eq_self {l : List PrimitiveType} (h : l.Pairwise leRank) :
    sortPrims l = l :=
  @List.eq_of_perm_of_sorted _ leRank _ _ _ (sortPrims_perm l) (sortPrims_pairwise l) h

theorem canonOf_two {l : List PrimitiveType} (h : 2 ≤ l.length) :
    canonOf l = .primitiveUnion l := by
  cases l with
  | nil => simp at h
  | cons a t =>
    cases t with
    | nil => simp at h
    | cons b u => rfl

theorem kindsOf_canonOf (l : List PrimitiveType) : kindsOf (canonOf l) = l := by
  cases l with
  | nil => rfl
  | cons a t =>
    cases t with
    | nil => rfl
    | cons b u => rfl

theorem PrimFrag_canonOf {l : List PrimitiveType} (h : l.Pairwise ltRank) :
    PrimFrag (canonOf l) := by
  cases l with
  | nil => trivial
  | cons a t =>
    cases t with
    | nil => trivial
    | cons b u =>
      refine ⟨h, ?_⟩
      simp

theorem canonOf_kindsOf {a : InferredType} (h : PrimFrag a) : canonOf (kindsOf a) = a := by
  cases a <;> simp only [PrimFrag] at h
  case never => rfl
  case primitive p => rfl
  case primitiveUnion l =>
    have h2 : 2 ≤ l.length := h.2
    simpa [kindsOf] using canonOf_two h2

theorem frag_kinds_pairwise {a : InferredType} (h : PrimFrag a) :
    (kindsOf a).Pairwise ltRank := by
  cases a <;> simp only [PrimFrag] at h
  case never => simp [kindsOf]
  case primitive p => simp [kindsOf, List.pairwise_cons]
  case primitiveUnion l => exact h.1

theorem canon_eval_eq {acc l target : List PrimitiveType}
    (hacc : acc.Nodup) (htgt : target.Pairwise ltRank)
    (hmem : ∀ p, (p ∈ acc ∨ p ∈ l) ↔ p ∈ target) :
    sortPrims (pushMissing acc l) = target := by
  refine canon_ext (sortPrims_pairwise_lt (nodup_pushMissing l acc hacc)) htgt ?_
  intro p
  rw [mem_sortPrims, mem_pushMissing]
  exact hmem p

theorem merge_frag_eval : ∀ {a b : InferredType}, PrimFrag a → PrimFrag b →
    merge_types a b = some (canonOf (sortPrims (pushMissing (kindsOf a) (kindsOf b)))) := by
  intro a b ha hb
  cases a <;> simp only [PrimFrag] at ha <;> cases b <;> simp only [PrimFrag] at hb
  case never.never =>
    simp [merge_types, kindsOf, pushMissing, sortPrims, canonOf]
  case never.primitive p =>
    simp [merge_types, kindsOf, pushMissing, sortPrims, insertPrim, canonOf]
  case never.primitiveUnion l =>
    have hnd : l.Nodup := nodup_of_pairwise_ltRank hb.1
    have h1 : pushMissing [] l = l := by
      simpa using pushMissing_append_of_disjoint l [] hnd (by simp)
    have h2 : sortPrims l = l := sortPrims_eq_self (hb.1.imp le_of_lt)
    simp [merge_types, kindsOf, h1, h2, canonOf_two hb.2]
  case primitive.never p =>
    simp [merge_types, kindsOf, pushMissing, sortPrims, insertPrim, canonOf]
  case primitiveUnion.never l =>
    have h2 : sortPrims l = l := sortPrims_eq_self (ha.1.imp le_of_lt)
    simp [merge_types, kindsOf, pushMissing, h2, canonOf_two ha.2]
  case primitive.primitive p q =>
    rcases Nat.lt_trichotomy p.rank q.rank with h | h | h
    · have hne : p ≠ q := fun hc => by subst hc; omega
      have h1 : merge_types (.primitive p) (.primitive q)
          = some (.primitiveUnion [p, q]) := by
        simp [merge_types, hne, PrimitiveType.lt, h]
      have h2 : pushMissing [p] [q] = [p, q] := by
        simp [pushMissing, Ne.symm hne]
      have h3 : sortPrims [p, q] = [p, q] := by
        simp [sortPrims, insertPrim, Nat.le_of_lt h]
      simp [h1, kindsOf, h2, h3, canonOf]
    · have hpq : p = q := PrimitiveType.rank_inj h
      subst hpq
      have h2 : pushMissing [p] [p] = [p] := pushMissing_eq_self [p] [p] (by simp)
      simp [merge_types, kindsOf, h2, sortPrims, insertPrim, canonOf]
    · have hne : p ≠ q := fun hc => by subst hc; omega
      have h1 : merge_types (.primitive p) (.primitive q)
          = some (.primitiveUnion [q, p]) := by
        simp [merge_types, hne, PrimitiveType.lt, Nat.lt_asymm h]
      have h2 : pushMissing [p] [q] = [p, q] := by
        simp [pushMissing, Ne.symm hne]
      have h3 : sortPrims [p, q] = [q, p] := by
        have hn : ¬ (p.rank ≤ q.rank) := by omega
        simp [sortPrims, insertPrim, hn]
      simp [h1, kindsOf, h2, h3, canonOf]
  case primitive.primitiveUnion p l =>
    have hnd : l.Nodup := nodup_of_pairwise_ltRank hb.1
    by_cases hpl : p ∈ l
    · have htgt : sortPrims (pushMissing [p] l) = l := by
        refine canon_eval_eq (List.nodup_singleton p) hb.1 ?_
        intro x
        simp only [List.mem_singleton]
        constructor
        · rintro (rfl | hx)
          · exact hpl
          · exact hx
        · exact Or.inr
      simp [merge_types, hpl, kindsOf, htgt, canonOf_two hb.2]
    · have hndlp : (l ++ [p]).Nodup := by
        rw [List.nodup_append]
        exact ⟨hnd, List.nodup_singleton p, by simpa using hpl⟩
      have htgt : sortPrims (pushMissing [p] l) = sortPrims (l ++ [p]) := by
        refine canon_eval_eq (List.nodup_singleton p) (sortPrims_pairwise_lt hndlp) ?_
        intro x
        rw [mem_sortPrims]
        simp only [List.mem_singleton, List.mem_append]
        tauto
      have hlen : 2 ≤ (sortPrims (l ++ [p])).length := by
        have := (sortPrims_perm (l ++ [p])).length_eq
        simp only [List.length_append, List.length_singleton] at this
        omega
      simp [merge_types, hpl, kindsOf, htgt, canonOf_two hlen]
  case primitiveUnion.primitive l p =>
    have hnd : l.Nodup := nodup_of_pairwise_ltRank ha.1
    have hpm : pushMissing l [p] = if p ∈ l then l else l ++ [p] := by
      simp [pushMissing]
    by_cases hpl : p ∈ l
    · have h2 : sortPrims l = l := sortPrims_eq_self (ha.1.imp le_of_lt)
      simp [merge_types, hpl, kindsOf, hpm, h2, canonOf_two ha.2]
    · have hlen : 2 ≤ (sortPrims (l ++ [p])).length := by
        have := (sortPrims_perm (l ++ [p])).length_eq
        simp only [List.length_append, List.length_singleton] at this
        omega
      simp [merge_types, hpl, kindsOf, hpm, canonOf_two hlen]
  case primitiveUnion.primitiveUnion l1 l2 =>
    by_cases h12 : l1 = l2
    · subst h12
      have h2 : pushMissing l1 l1 = l1 := pushMissing_eq_self l1 l1 (fun x hx => hx)
      have h3 : sortPrims l1 = l1 := sortPrims_eq_self (ha.1.imp le_of_lt)
      simp [merge_types, kindsOf, h2, h3, canonOf_two ha.2]
    · have hlen : 2 ≤ (sortPrims (pushMissing l1 l2)).length := by
        have hp := (sortPrims_perm (pushMissing l1 l2)).length_eq
        have hq := length_le_pushMissing l2 l1
        omega
      simp [merge_types, h12, kindsOf, canonOf_two hlen]

theorem reduceMerge_cons (acc t : InferredType) (ts : List InferredType) :
    reduceMerge acc (t :: ts) = (merge_types acc t).bind (fun x => reduceMerge x ts) := by
  simp [reduceMerge, List.foldlM_cons]

theorem fragFoldKinds_pairwise : ∀ (ts : List InferredType) (k : List PrimitiveType),
    k.Pairwise ltRank → (fragFoldKinds k ts).Pairwise ltRank := by
  intro ts
  induction ts with
  | nil => exact fun k h => h
  | cons t ts ih =>
    intro k hk
    show (fragFoldKinds (sortPrims (pushMissing k (kindsOf t))) ts).Pairwise ltRank
    exact ih _ (sortPrims_pairwise_lt (nodup_pushMissing _ _ (nodup_of_pairwise_ltRank hk)))

theorem mem_fragFoldKinds : ∀ (ts : List InferredType) (k : List PrimitiveType)
    (p : PrimitiveType), p ∈ fragFoldKinds k ts ↔ p ∈ k ∨ ∃ t ∈ ts, p ∈ kindsOf t := by
  intro ts
  induction ts with
  | nil => simp [fragFoldKinds]
  | cons t ts ih =>
    intro k p
    show p ∈ fragFoldKinds (sortPrims (pushMissing k (kindsOf t))) ts ↔ _
    rw [ih]
    rw [mem_sortPrims, mem_pushMissing]
    simp only [List.mem_cons]
    constructor
    · rintro ((h | h) | ⟨x, hx, hpx⟩)
      · exact Or.inl h
      · exact Or.inr ⟨t, Or.inl rfl, h⟩
      · exact Or.inr ⟨x, Or.inr hx, hpx⟩
    · rintro (h | ⟨x, (rfl | hx), hpx⟩)
      · exact Or.inl (Or.inl h)
      · exact Or.inl (Or.inr hpx)
      · exact Or.inr ⟨x, hx, hpx⟩

theorem reduceMerge_frag_eval : ∀ (ts : List InferredType) (acc : InferredType),
    PrimFrag acc → (∀ t ∈ ts, PrimFrag t) →
    reduceMerge acc ts = some (canonOf (fragFoldKinds (kindsOf acc) ts)) := by
  intro ts
  induction ts with
  | nil =>
    intro acc hacc _
    show some acc = _
    rw [show fragFoldKinds (kindsOf acc) [] = kindsOf acc from rfl, canonOf_kindsOf hacc]
  | cons t ts ih =>
    intro acc hacc hts
    have ht := hts t (List.mem_cons_self _ _)
    have hrest := fun x hx => hts x (List.mem_cons_of_mem _ hx)
    rw [reduceMerge_cons, merge_frag_eval hacc ht]
    have hfrag' : PrimFrag (canonOf (sortPrims (pushMissing (kindsOf acc) (kindsOf t)))) :=
      PrimFrag_canonOf (sortPrims_pairwise_lt
        (nodup_pushMissing _ _ (nodup_of_pairwise_ltRank (frag_kinds_pairwise hacc))))
    show reduceMerge (canonOf (sortPrims (pushMissing (kindsOf acc) (kindsOf t)))) ts = _
    rw [ih _ hfrag' hrest, kindsOf_canonOf]
    rfl

/-- Counterexample for C1 as stated: the inferred types of the well-formed
samples 1, null and \x7b\x7d of one category reduce to `Any` in one order but
to `NullableObj(Any)` in another — `merge_types` is not associative and the
fold is order-dependent. -/
theorem reduceMerge_not_order_independent :
    infer_type_from_value (.num 1) = some (.primitive .number) ∧
    infer_type_from_value .null = some (.primitive .null) ∧
    infer_type_from_value (.obj []) = some (.object .nil) ∧
    List.Perm [InferredType.primitive .number, .primitive .null, .object .nil]
      [InferredType.primitive .null, .object .nil, .primitive .number] ∧
    reduceMerge .never [.primitive .number, .primitive .null, .object .nil] = some .any ∧
    reduceMerge .never [.primitive .null, .object .nil, .primitive .number]
      = some (.nullableObj .any) := by
  refine ⟨by simp [infer_type_from_value], by simp [infer_type_from_value],
    by simp [infer_type_from_value, inferProps], by decide, ?_, ?_⟩
  · simp [reduceMerge, merge_types, PrimitiveType.lt, PrimitiveType.rank,
      sortPrims, insertPrim]
  · simp [reduceMerge, merge_types, PrimitiveType.lt, PrimitiveType.rank,
      sortPrims, insertPrim]

/-- C1 (amended): reducing the inferred types of one category's samples is
order-independent on the primitive-kind fragment — when every sample's
inferred type is `Never`, a `Primitive`, or a canonical `PrimitiveUnion`, any
permutation of the samples folds to the identical `InferredType`. In general
the claim fails (see the counterexample: `Any` versus `NullableObj(Any)`). -/
theorem reduceMerge_perm_invariant_on_prim_fragment (ts1 ts2 : List InferredType)
    (hperm : List.Perm ts1 ts2) (hfrag : ∀ t ∈ ts1, PrimFrag t) :
    reduceMerge .never ts1 = reduceMerge .never ts2 := by
  have hfrag2 : ∀ t ∈ ts2, PrimFrag t := fun t ht => hfrag t (hperm.mem_iff.mpr ht)
  rw [reduceMerge_frag_eval ts1 .never trivial hfrag,
    reduceMerge_frag_eval ts2 .never trivial hfrag2]
  have hkey : fragFoldKinds (kindsOf .never) ts1 = fragFoldKinds (kindsOf .never) ts2 := by
    refine canon_ext (fragFoldKinds_pairwise ts1 _ (by simp [kindsOf]))
      (fragFoldKinds_pairwise ts2 _ (by simp [kindsOf])) ?_
    intro p
    rw [mem_fragFoldKinds, mem_fragFoldKinds]
    constructor
    · rintro (h | ⟨t, ht, hpt⟩)
      · exact Or.inl h
      · exact Or.inr ⟨t, hperm.mem_iff.mp ht, hpt⟩
    · rintro (h | ⟨t, ht, hpt⟩)
      · exact Or.inl h
      · exact Or.inr ⟨t, hperm.mem_iff.mpr ht, hpt⟩
  rw [hkey]

/-- Witness for C1 (amended): two orders of the same primitive samples fold to
the identical type. -/
theorem reduceMerge_perm_invariant_witness :
    reduceMerge .never [.primitive .number, .primitive .string]
      = reduceMerge .never [.primitive .string, .primitive .number] :=
  reduceMerge_perm_invariant_on_prim_fragment _ _ (by decide)
    (by intro t ht; simp only [List.mem_cons] at ht
        rcases ht with rfl | rfl | h
        · trivial
        · trivial
        · simp at h)
